import Mathlib

/-!
Verification development for the reliability and reassembly core of the
zenoh repository.

Embedded components (shallow embedding, translated from the Rust sources):
* `handle_sample`, `seq_num_range`, `sub_callback`, `PeriodicQuery::run`,
  `RepliesHandler::drop`, `InitialRepliesHandler::drop` and the history
  bootstrap query from `src/zenoh-ext/src/nbftreliable_subscriber.rs`;
* `DefragBuffer` (`make`, `clear`, `push`, `defragment`) from
  `src/io/zenoh-transport/src/common/defragmentation.rs`.

Modelling conventions:
* the Rust `Nat` type (= `u64`) is modelled as `Nat`, and so is `ZenohId`; the claims under
  study do not involve `u64` wrap-around arithmetic.
* Rust `HashMap` values are modelled as association lists with in-place
  update (`alInsert` replaces the binding of an existing key where it
  stands, so re-inserting an unchanged value is the identity, matching
  `HashMap` extensional behaviour).
* Rust `String` values are modelled as `List Char`.
* Fallible or panicking code paths return `Option` / `Except`; a `none`
  result of a callback model marks a Rust panic (`Option::unwrap` on
  `None`, or integer underflow in debug builds).
* The `while let Some(s) = pending.remove(&(last + 1))` loop of
  `handle_sample` is modelled by `drainLoop` with an explicit fuel equal
  to the size of the pending map: every iteration of the Rust loop
  removes one entry from the finite map, so the map size bounds the
  number of iterations and the fuelled function computes the same
  result as the loop.
-/

abbrev ZenohId := Nat

/-- A zenoh sample: opaque payload plus source info, as used by
`nbftreliable_subscriber.rs`. The key expression plays no role in the
claims under study and is omitted. -/
structure Sample where
  source_id : Option ZenohId
  source_sn : Option Nat
  payload : Nat
  deriving DecidableEq

/-- Lookup in an association list, the model of `HashMap::get`. -/
def alGet {α : Type} (k : Nat) : List (Nat × α) → Option α
  | [] => none
  | (k', v) :: t => if k' = k then some v else alGet k t

/-- Insert-or-replace in an association list, the model of
`HashMap::insert` (and of `Entry::or_insert` followed by mutation of the
entry). The binding of an existing key is replaced in place. -/
def alInsert {α : Type} (k : Nat) (v : α) : List (Nat × α) → List (Nat × α)
  | [] => [(k, v)]
  | (k', v') :: t => if k' = k then (k, v) :: t else (k', v') :: alInsert k v t

/-- Remove a key from an association list, the model of
`HashMap::remove` (the removed value side is obtained with `alGet`). -/
def alErase {α : Type} (k : Nat) : List (Nat × α) → List (Nat × α)
  | [] => []
  | (k', v') :: t => if k' = k then t else (k', v') :: alErase k t

/-- `InnerState` of `nbftreliable_subscriber.rs` (lines 255-259). -/
structure InnerState where
  last_seq_num : Option Nat
  pending_queries : Nat
  pending_samples : List (Nat × Sample)
  deriving DecidableEq

/-- The state freshly inserted by `handle_sample`'s `entry.or_insert`. -/
def InnerState.init : InnerState := ⟨none, 0, []⟩

abbrev StatesMap := List (ZenohId × InnerState)

/-- The `while let Some(s) = state.pending_samples.remove(&(last_seq_num + 1))`
loop of `handle_sample` (lines 311-315): starting just after a delivery
that set `last_seq_num := last`, repeatedly remove and deliver the sample
keyed `last + 1`, advancing `last`. Returns (delivered samples, remaining
pending map, final `last_seq_num`). The fuel argument bounds the number
of iterations; `handle_sample` passes the pending map's size, which the
Rust loop can never exceed since each iteration removes one entry. -/
def drainLoop : Nat → List (Nat × Sample) → Nat → List Sample × List (Nat × Sample) × Nat
  | 0, pending, last => ([], pending, last)
  | fuel + 1, pending, last =>
    match alGet (last + 1) pending with
    | none => ([], pending, last)
    | some s =>
      let r := drainLoop fuel (alErase (last + 1) pending) (last + 1)
      (s :: r.1, r.2)

/-- The delivery branch of `handle_sample` (lines 307-316): deliver the
sample, set `last_seq_num := source_sn`, then drain consecutive
successors from `pending_samples`. Returns the updated state and the
list of samples passed to the callback, in callback order. -/
def deliverAndDrain (state : InnerState) (source_sn : Nat) (sample : Sample) :
    InnerState × List Sample :=
  let r := drainLoop state.pending_samples.length state.pending_samples source_sn
  ({ state with last_seq_num := some r.2.2, pending_samples := r.2.1 }, sample :: r.1)

/-- `handle_sample` of `nbftreliable_subscriber.rs` (lines 283-322).
Returns the updated states map, the list of samples passed to the
delivery callback (in call order), and the returned boolean. Note the
source computes the boolean as `matches!(&entry, Entry::Occupied(_))`,
i.e. it is `true` when the entry for `source_id` already existed. -/
def handle_sample (states : StatesMap) (wait : Bool) (sample : Sample) :
    StatesMap × List Sample × Bool :=
  match sample.source_id, sample.source_sn with
  | some source_id, some source_sn =>
    let new := (alGet source_id states).isSome
    let state := (alGet source_id states).getD InnerState.init
    if wait then
      (alInsert source_id
        { state with pending_samples := alInsert source_sn sample state.pending_samples }
        states, [], new)
    else
      match state.last_seq_num with
      | some l =>
        if source_sn ≠ l + 1 then
          if source_sn > l then
            (alInsert source_id
              { state with pending_samples := alInsert source_sn sample state.pending_samples }
              states, [], new)
          else
            (alInsert source_id state states, [], new)
        else
          let r := deliverAndDrain state source_sn sample
          (alInsert source_id r.1 states, r.2, new)
      | none =>
        let r := deliverAndDrain state source_sn sample
        (alInsert source_id r.1 states, r.2, new)
  | _, _ => (states, [sample], true)

/-- Decimal digit character, code point `48 + d`. -/
def digitChar (d : Nat) : Char := Char.ofNat (48 + d)

/-- Decimal representation of a natural number as a character list, the
model of Rust's `format!("{}", n)` for an unsigned integer. -/
def natRepr (n : Nat) : List Char :=
  if n = 0 then ['0'] else ((Nat.digits 10 n).reverse).map digitChar

/-- The characters `_sn=` opening every sequence-number range string. -/
def snTag : List Char := ['_', 's', 'n', '=']

/-- The characters `..` separating the range bounds. -/
def ddots : List Char := ['.', '.']

/-- `seq_num_range` of `nbftreliable_subscriber.rs` (lines 325-332),
with the Rust `String` modelled as `List Char`. -/
def seq_num_range (start stop : Option Nat) : List Char :=
  match start, stop with
  | some s, some e => snTag ++ natRepr s ++ ddots ++ natRepr e
  | some s, none => snTag ++ natRepr s ++ ddots
  | none, some e => snTag ++ ddots ++ natRepr e
  | none, none => snTag ++ ddots

/-- Decimal digit test on a character (code points 48-57). -/
def isDigitChar (c : Char) : Bool := decide (48 ≤ c.toNat) && decide (c.toNat ≤ 57)

/-- Numeric value of a digit character. -/
def charVal (c : Char) : Nat := c.toNat - 48

/-- Value of a decimal digit string (most significant digit first). -/
def natVal (cs : List Char) : Nat := Nat.ofDigits 10 ((cs.map charVal).reverse)

/-- Modelled from the spec: the repository contains no parser for the
`_sn` parameter under `src/` (it lives on the publisher side); this
parser follows the spec's grammar `_sn=<start>..<end?>` with `start` and
optional `end` as decimal `u64`, open ends omitted (spec section 6). -/
def parseSeqNumRange (cs : List Char) : Option (Option Nat × Option Nat) :=
  match cs with
  | c1 :: c2 :: c3 :: c4 :: rest =>
    if c1 = '_' ∧ c2 = 's' ∧ c3 = 'n' ∧ c4 = '=' then
      let a := rest.takeWhile isDigitChar
      match rest.dropWhile isDigitChar with
      | d1 :: d2 :: b =>
        if d1 = '.' ∧ d2 = '.' ∧ b.all isDigitChar then
          some ((if a.isEmpty then none else some (natVal a)),
                (if b.isEmpty then none else some (natVal b)))
        else none
      | _ => none
    else none
  | _ => none

/-- The live-subscriber callback `sub_callback` of
`nbftreliable_subscriber.rs` (lines 428-478). `periodic` records whether
periodic queries are configured (`conf.period.is_some()`). The result is
`none` when the Rust closure panics (the `state.last_seq_num.unwrap()`
of line 449 on a `None` value); otherwise it returns the updated states
map, the samples delivered to the consumer callback, whether a periodic
probe timer was started for the sample's source (lines 435-442), and the
`_sn` parameter string of the recovery query issued, if any
(lines 445-474). -/
def sub_callback (periodic : Bool) (states : StatesMap) (wait : Bool) (s : Sample) :
    Option (StatesMap × List Sample × Bool × Option (List Char)) :=
  let source_id := s.source_id
  let r := handle_sample states wait s
  let states1 := r.1
  let delivered := r.2.1
  let new := r.2.2
  match source_id with
  | none => some (states1, delivered, false, none)
  | some sid =>
    let timerStarted := new && periodic
    match alGet sid states1 with
    | none => some (states1, delivered, timerStarted, none)
    | some state =>
      if state.pending_queries = 0 ∧ ¬state.pending_samples.isEmpty then
        let state1 := { state with pending_queries := state.pending_queries + 1 }
        match state.last_seq_num with
        | none => none
        | some l =>
          some (alInsert sid state1 states1, delivered, timerStarted,
            some (seq_num_range (some (l + 1)) none))
      else some (states1, delivered, timerStarted, none)

/-- `PeriodicQuery::run` of `nbftreliable_subscriber.rs` (lines 357-390),
up to the point where the recovery query is launched. The result is
`none` when the Rust code panics (`state.last_seq_num.unwrap()` of
line 363 on a `None` value); otherwise it returns the updated states map
and the `_sn` parameter string of the query issued, if any. -/
def periodic_query_run (sid : ZenohId) (states : StatesMap) :
    Option (StatesMap × Option (List Char)) :=
  match alGet sid states with
  | none => some (states, none)
  | some state =>
    let state1 := { state with pending_queries := state.pending_queries + 1 }
    match state.last_seq_num with
    | none => none
    | some l => some (alInsert sid state1 states, some (seq_num_range (some (l + 1)) none))

/-- The `for (seq_num, sample) in pending_samples` loops of the two drop
handlers (lines 552-555 and 588-591): for each pair in order, set
`last_seq_num := Some(seq_num)` and deliver the sample. Returns the
final `last_seq_num` and the delivered samples in callback order. -/
def deliverSorted (last : Option Nat) : List (Nat × Sample) → Option Nat × List Sample
  | [] => (last, [])
  | (k, s) :: rest =>
    let r := deliverSorted (some k) rest
    (r.1, s :: r.2)

/-- The `pending_samples.drain().collect(); sort_by_key` of the drop
handlers: the pending map's entries in ascending key order. -/
def sortByKey (l : List (Nat × Sample)) : List (Nat × Sample) :=
  l.insertionSort (fun a b => a.1 ≤ b.1)

/-- `RepliesHandler::drop` of `nbftreliable_subscriber.rs`
(lines 576-595). The result is `none` when the Rust code panics
(`state.pending_queries -= 1` underflows in a debug build); otherwise it
returns the updated states map, the samples delivered to the consumer
callback, and whether the loss event was logged (line 582). -/
def replies_handler_drop (sid : ZenohId) (states : StatesMap) (wait : Bool) :
    Option (StatesMap × List Sample × Bool) :=
  match alGet sid states with
  | none => some (states, [], false)
  | some state =>
    match state.pending_queries with
    | 0 => none
    | pq + 1 =>
      if ¬state.pending_samples.isEmpty ∧ wait = false then
        let sorted := sortByKey state.pending_samples
        let r := deliverSorted state.last_seq_num sorted
        some (alInsert sid
          { state with pending_queries := pq, pending_samples := [], last_seq_num := r.1 }
          states, r.2, true)
      else
        some (alInsert sid { state with pending_queries := pq } states, [], false)

/-- Observable events of `InitialRepliesHandler::drop`, in order. -/
inductive Event where
  | deliver (sid : ZenohId) (s : Sample)
  | startTimer (sid : ZenohId)
  | clearWait
  deriving DecidableEq

/-- The `for (source_id, state) in states.iter_mut()` loop of
`InitialRepliesHandler::drop` (lines 546-562): per source, drain
`pending_samples` in ascending key order delivering each sample and
updating `last_seq_num`, then add the periodic probe timer event for the
source when periodic queries are configured. -/
def initialDropLoop (periodic : Bool) : StatesMap → StatesMap × List Event
  | [] => ([], [])
  | (sid, state) :: rest =>
    let sorted := sortByKey state.pending_samples
    let r := deliverSorted state.last_seq_num sorted
    let state1 := { state with pending_samples := [], last_seq_num := r.1 }
    let timerEvs := if periodic then [Event.startTimer sid] else []
    let rec1 := initialDropLoop periodic rest
    ((sid, state1) :: rec1.1, r.2.map (Event.deliver sid) ++ timerEvs ++ rec1.2)

/-- `InitialRepliesHandler::drop` of `nbftreliable_subscriber.rs`
(lines 543-565): run the per-source drain loop, then set `wait` to
`false`. Returns the updated states map, the new `wait` flag, and the
ordered event trace (deliveries and timer starts, with the clearing of
`wait` as an event so its position is observable). -/
def initial_replies_handler_drop (periodic : Bool) (states : StatesMap) :
    StatesMap × Bool × List Event :=
  let r := initialDropLoop periodic states
  (r.1, false, r.2 ++ [Event.clearWait])

/-- Folding a list of samples through `handle_sample` with `wait`
permanently `false`: the live/reply sample stream as seen by the router
outside the bootstrap phase. Returns the final states map and the
concatenated delivery trace. -/
def runSamples (states : StatesMap) : List Sample → StatesMap × List Sample
  | [] => (states, [])
  | s :: rest =>
    let r := handle_sample states false s
    let r2 := runSamples r.1 rest
    (r2.1, r.2.1 ++ r2.2)

/-- Source sequence numbers of a delivery trace. -/
def traceSns (l : List Sample) : List Nat := l.map (fun s => s.source_sn.getD 0)

/-- The history bootstrap query issued by `NBFTReliableSubscriber::new`
when `conf.history` holds (lines 495-516): the selector's key expression
is `"*" / key_expr` and its parameter string is the literal `"0.."`
passed to `with_parameters`. Returns (key expression, parameters), both
as character lists. -/
def historyBootstrapQuery (key_expr : List Char) : List Char × List Char :=
  ('*' :: '/' :: key_expr, ['0', '.', '.'])

/-- Reliability profile of a transport link. -/
inductive Reliability where
  | reliable
  | bestEffort
  deriving DecidableEq

/-- Modelled from the spec: `SeqNum` (`src/io/zenoh-transport/src/common/seq_num.rs`
is not under `src/`), spec sections 3 and 4.1: value `v` with resolution
`R`, invariant `0 ≤ v < R`; `make` fails if `resolution < 2` or
`initial ≥ resolution`; `set` fails on the same bound; `increment` wraps
modulo `R`. -/
structure SeqNum where
  value : Nat
  resolution : Nat
  deriving DecidableEq

/-- Modelled from the spec: `SeqNum::make` (spec section 4.1). -/
def SeqNum.make (initial resolution : Nat) : Option SeqNum :=
  if 2 ≤ resolution ∧ initial < resolution then some ⟨initial, resolution⟩ else none

/-- Modelled from the spec: `SeqNum::get`. -/
def SeqNum.get (s : SeqNum) : Nat := s.value

/-- Modelled from the spec: `SeqNum::set` (spec section 4.1). -/
def SeqNum.set (s : SeqNum) (sn : Nat) : Option SeqNum :=
  if sn < s.resolution then some { s with value := sn } else none

/-- Modelled from the spec: `SeqNum::increment` wraps modulo the
resolution (spec sections 3 and 4.1). -/
def SeqNum.increment (s : SeqNum) : SeqNum :=
  { s with value := (s.value + 1) % s.resolution }

/-- Error taxonomy of `DefragBuffer` operations (the two `bail!` sites of
`defragmentation.rs`, spec section 7). -/
inductive DefragError where
  | outOfSequence (expected got : Nat)
  | overflow (len capacity : Nat)
  deriving DecidableEq

/-- `DefragBuffer` of `defragmentation.rs` (lines 23-30), with `ZBuf`
and `ZSlice` modelled as byte lists. -/
structure DefragBuffer where
  reliability : Reliability
  sn : SeqNum
  capacity : Nat
  len : Nat
  buffer : List Nat
  deriving DecidableEq

/-- `DefragBuffer::make` (lines 33-46). -/
def DefragBuffer.make (reliability : Reliability) (sn_resolution : Nat) (capacity : Nat) :
    Option DefragBuffer :=
  (SeqNum.make 0 sn_resolution).map fun sn =>
    { reliability := reliability, sn := sn, capacity := capacity, len := 0, buffer := [] }

/-- `DefragBuffer::is_empty` (lines 48-51). -/
def DefragBuffer.is_empty (b : DefragBuffer) : Bool := b.buffer.isEmpty

/-- `DefragBuffer::clear` (lines 53-57): reset the accumulated length
and drop the held fragments. The expected `SeqNum` is not touched. -/
def DefragBuffer.clear (b : DefragBuffer) : DefragBuffer :=
  { b with len := 0, buffer := [] }

/-- `DefragBuffer::sync` (lines 59-62). -/
def DefragBuffer.sync (b : DefragBuffer) (sn : Nat) : Option DefragBuffer :=
  (b.sn.set sn).map fun s => { b with sn := s }

/-- `DefragBuffer::push` (lines 64-84). Returns the post-call buffer and
the call's result. -/
def DefragBuffer.push (b : DefragBuffer) (sn : Nat) (zslice : List Nat) :
    DefragBuffer × Except DefragError Unit :=
  if sn ≠ b.sn.get then
    (b.clear, Except.error (DefragError.outOfSequence b.sn.get sn))
  else
    let b1 := { b with len := b.len + zslice.length }
    if b1.capacity < b1.len then
      (b1.clear, Except.error (DefragError.overflow b1.len b1.capacity))
    else
      ({ b1 with buffer := b1.buffer ++ zslice, sn := b1.sn.increment }, Except.ok ())

/-- `DefragBuffer::defragment` (lines 86-93), parameterised by the
external reliability-indexed codec (spec section 6). Note the source
calls `self.buffer.clear()` only: the held fragments are dropped but the
accumulated length `len` is left unchanged. -/
def DefragBuffer.defragment {M : Type} (b : DefragBuffer)
    (readCodec : Reliability → List Nat → Option M) : DefragBuffer × Option M :=
  let res := readCodec b.reliability b.buffer
  ({ b with buffer := [] }, res)

/-! ### Association-list lemmas -/

theorem alGet_alInsert_self {α : Type} (k : Nat) (v : α) (m : List (Nat × α)) :
    alGet k (alInsert k v m) = some v := by
  induction m with
  | nil => simp [alGet, alInsert]
  | cons p t ih =>
    by_cases h : p.1 = k
    · simp [alGet, alInsert, h]
    · simp [alGet, alInsert, h, ih]

theorem alInsert_self {α : Type} {k : Nat} {v : α} {m : List (Nat × α)}
    (h : alGet k m = some v) : alInsert k v m = m := by
  induction m with
  | nil => simp [alGet] at h
  | cons p t ih =>
    obtain ⟨p1, p2⟩ := p
    by_cases hk : p1 = k
    · simp [alGet, hk] at h
      subst hk
      subst h
      simp [alInsert]
    · simp [alGet, hk] at h
      simp [alInsert, hk, ih h]

theorem alGet_mem {α : Type} {k : Nat} {v : α} {m : List (Nat × α)}
    (h : alGet k m = some v) : (k, v) ∈ m := by
  induction m with
  | nil => simp [alGet] at h
  | cons p t ih =>
    by_cases hk : p.1 = k
    · simp [alGet, hk] at h
      have : (k, v) = p := by
        cases p
        simp_all
      rw [this]
      exact List.mem_cons_self _ _
    · simp [alGet, hk] at h
      exact List.mem_cons_of_mem _ (ih h)

theorem mem_alInsert {α : Type} {k : Nat} {v : α} {m : List (Nat × α)} {p : Nat × α}
    (h : p ∈ alInsert k v m) : p = (k, v) ∨ p ∈ m := by
  induction m with
  | nil => simp [alInsert] at h; simp [h]
  | cons q t ih =>
    by_cases hk : q.1 = k
    · simp [alInsert, hk] at h
      rcases h with h | h
      · exact Or.inl h
      · exact Or.inr (List.mem_cons_of_mem _ h)
    · simp [alInsert, hk] at h
      rcases h with h | h
      · exact Or.inr (by simp [h])
      · rcases ih h with h' | h'
        · exact Or.inl h'
        · exact Or.inr (List.mem_cons_of_mem _ h')

theorem mem_alErase {α : Type} {k : Nat} {m : List (Nat × α)} {p : Nat × α}
    (h : p ∈ alErase k m) : p ∈ m := by
  induction m with
  | nil => simp [alErase] at h
  | cons q t ih =>
    by_cases hk : q.1 = k
    · simp [alErase, hk] at h
      exact List.mem_cons_of_mem _ h
    · simp [alErase, hk] at h
      rcases h with h | h
      · simp [h]
      · exact List.mem_cons_of_mem _ (ih h)

/-! ### DefragBuffer claims -/

/-- C5: a `push` whose `sn` differs from the expected next `SeqNum`
returns the `OutOfSequence` error, leaves the buffer empty with
accumulated length zero and no held fragments, and leaves the expected
`SeqNum` in place, unchanged and not advanced (the buffer is reset to
await exactly that sequence number). -/
theorem c5_push_out_of_sequence (b : DefragBuffer) (sn : Nat) (zslice : List Nat)
    (h : sn ≠ b.sn.get) :
    (b.push sn zslice).2 = Except.error (DefragError.outOfSequence b.sn.get sn) ∧
    (b.push sn zslice).1.len = 0 ∧
    (b.push sn zslice).1.buffer = [] ∧
    (b.push sn zslice).1.sn = b.sn ∧
    (b.push sn zslice).1.capacity = b.capacity := by
  simp [DefragBuffer.push, DefragBuffer.clear, h]

/-- Witness for `c5_push_out_of_sequence` at a concrete buffer. -/
theorem c5_push_out_of_sequence_witness :
    let b : DefragBuffer := ⟨Reliability.reliable, ⟨0, 4⟩, 10, 0, []⟩
    (b.push 3 [1, 2]).2 = Except.error (DefragError.outOfSequence 0 3) ∧
    (b.push 3 [1, 2]).1.len = 0 ∧
    (b.push 3 [1, 2]).1.buffer = [] ∧
    (b.push 3 [1, 2]).1.sn = b.sn ∧
    (b.push 3 [1, 2]).1.capacity = 10 :=
  c5_push_out_of_sequence ⟨Reliability.reliable, ⟨0, 4⟩, 10, 0, []⟩ 3 [1, 2] (by decide)

/-- C6: a `push` with the expected `SeqNum` whose slice brings the
accumulated length to exactly the capacity succeeds, appending the slice
and advancing the `SeqNum` by one (modulo its resolution); a push that
brings the accumulated length strictly above the capacity clears the
buffer and fails with `Overflow`; an empty slice is legal and still
advances the `SeqNum`. -/
theorem c6_push_capacity (b : DefragBuffer) (sn : Nat) (zslice : List Nat) :
    (sn = b.sn.get → b.len + zslice.length = b.capacity →
      (b.push sn zslice).2 = Except.ok () ∧
      (b.push sn zslice).1.buffer = b.buffer ++ zslice ∧
      (b.push sn zslice).1.len = b.capacity ∧
      (b.push sn zslice).1.sn.value = (b.sn.value + 1) % b.sn.resolution) ∧
    (sn = b.sn.get → b.capacity < b.len + zslice.length →
      (b.push sn zslice).2 = Except.error
        (DefragError.overflow (b.len + zslice.length) b.capacity) ∧
      (b.push sn zslice).1.len = 0 ∧
      (b.push sn zslice).1.buffer = []) ∧
    (sn = b.sn.get → b.len ≤ b.capacity →
      (b.push sn []).2 = Except.ok () ∧
      (b.push sn []).1.buffer = b.buffer ∧
      (b.push sn []).1.len = b.len ∧
      (b.push sn []).1.sn.value = (b.sn.value + 1) % b.sn.resolution) := by
  refine ⟨fun h hfill => ?_, fun h hover => ?_, fun h hle => ?_⟩
  · have hnotover : ¬ b.capacity < b.len + zslice.length := by omega
    simp [DefragBuffer.push, h, SeqNum.increment, hfill, hnotover]
  · simp [DefragBuffer.push, DefragBuffer.clear, h, hover]
  · have hnotover : ¬ b.capacity < b.len := by omega
    simp [DefragBuffer.push, h, SeqNum.increment, hnotover]

/-- Witness for `c6_push_capacity` at a concrete buffer: capacity 3,
one byte already held; a two-byte push exactly fills it, a three-byte
push overflows, an empty push succeeds. -/
theorem c6_push_capacity_witness :
    let b : DefragBuffer := ⟨Reliability.reliable, ⟨5, 7⟩, 3, 1, [9]⟩
    ((b.push 5 [1, 2]).2 = Except.ok () ∧
      (b.push 5 [1, 2]).1.buffer = [9, 1, 2] ∧
      (b.push 5 [1, 2]).1.len = 3 ∧
      (b.push 5 [1, 2]).1.sn.value = 6) ∧
    ((b.push 5 [1, 2, 3]).2 = Except.error (DefragError.overflow 4 3) ∧
      (b.push 5 [1, 2, 3]).1.len = 0 ∧
      (b.push 5 [1, 2, 3]).1.buffer = []) ∧
    ((b.push 5 []).2 = Except.ok () ∧
      (b.push 5 []).1.buffer = [9] ∧
      (b.push 5 []).1.len = 1 ∧
      (b.push 5 []).1.sn.value = 6) := by
  refine ⟨?_, ?_, ?_⟩
  · have h := (c6_push_capacity ⟨Reliability.reliable, ⟨5, 7⟩, 3, 1, [9]⟩ 5 [1, 2]).1
      (by decide) (by decide)
    simpa using h
  · have h := (c6_push_capacity ⟨Reliability.reliable, ⟨5, 7⟩, 3, 1, [9]⟩ 5 [1, 2, 3]).2.1
      (by decide) (by decide)
    simpa using h
  · have h := (c6_push_capacity ⟨Reliability.reliable, ⟨5, 7⟩, 3, 1, [9]⟩ 5 []).2.2
      (by decide) (by decide)
    simpa using h

/-- C4 fails on the code: `defragment` clears the held fragments but
does not reset the accumulated length (`defragmentation.rs` line 91
calls `self.buffer.clear()`, not `self.clear()`). Concretely: capacity
1, a one-byte fragment is pushed and `defragment` consumes it; the
buffer is empty but `len` is still 1, and the next in-sequence one-byte
push — total since `defragment` is 1 ≤ capacity — fails with
`Overflow` instead of succeeding. -/
theorem c4_defragment_len_not_reset :
    let b0 : DefragBuffer := ⟨Reliability.reliable, ⟨0, 8⟩, 1, 0, []⟩
    let b1 := (b0.push 0 [7]).1
    let b2 := (b1.defragment (fun _ _ => (none : Option Unit))).1
    (b0.push 0 [7]).2 = Except.ok () ∧
    b1.len = 1 ∧ b1.buffer = [7] ∧
    b2.buffer = [] ∧ b2.is_empty = true ∧ b2.len = 1 ∧
    (b2.push 1 [9]).2 = Except.error (DefragError.overflow 2 1) :=
  ⟨rfl, rfl, rfl, rfl, rfl, rfl, rfl⟩

/-! ### History bootstrap, new-source flag and panic claims -/

/-- C9 fails on the code: the bootstrap query's key expression is indeed
the wildcard segment joined with the subscription key expression, but
its parameter string is the literal `"0.."` passed to `with_parameters`
(`nbftreliable_subscriber.rs` line 499), not the `"_sn=0.."` produced by
`seq_num_range(Some(0), None)` that every other recovery query uses. -/
theorem c9_history_query_params :
    (historyBootstrapQuery ['a']).1 = ['*', '/', 'a'] ∧
    (historyBootstrapQuery ['a']).2 = ['0', '.', '.'] ∧
    (historyBootstrapQuery ['a']).2 ≠ seq_num_range (some 0) none ∧
    seq_num_range (some 0) none = ['_', 's', 'n', '=', '0', '.', '.'] := by
  refine ⟨rfl, rfl, ?_, ?_⟩ <;> decide

/-- C2 fails on the code: `handle_sample` computes the "new source"
boolean as `matches!(&entry, Entry::Occupied(_))` (line 295), which is
`true` exactly when an entry for the source already existed. On the very
first sample from a source it returns `false`, and from the second
sample on it returns `true`; consequently `sub_callback` (lines 434-442)
starts no periodic probe timer on the first observation and starts a
fresh one on every later sample. -/
theorem c2_new_source_flag_inverted :
    (handle_sample [] false ⟨some 1, some 0, 0⟩).2.2 = false ∧
    (handle_sample (handle_sample [] false ⟨some 1, some 0, 0⟩).1
      false ⟨some 1, some 1, 1⟩).2.2 = true ∧
    (sub_callback true [] false ⟨some 1, some 0, 0⟩).map (fun r => r.2.2.1) = some false ∧
    (sub_callback true (handle_sample [] false ⟨some 1, some 0, 0⟩).1
      false ⟨some 1, some 1, 1⟩).map (fun r => r.2.2.1) = some true := by
  refine ⟨rfl, ?_, ?_, ?_⟩ <;> decide

/-- C3 fails on the code: with `wait` true, a live sample from a
never-delivered source is buffered by `handle_sample`, after which
`sub_callback` finds `pending_queries == 0` and a non-empty
`pending_samples` and evaluates `state.last_seq_num.unwrap()`
(line 449) on a `None` value — a panic. Likewise `PeriodicQuery::run`
(line 363) panics when the timer fires for a source whose
`last_seq_num` is still `None`. -/
theorem c3_callback_panics :
    sub_callback false [] true ⟨some 1, some 5, 0⟩ = none ∧
    periodic_query_run 1 [(1, InnerState.init)] = none := by
  refine ⟨?_, ?_⟩ <;> decide

/-! ### Sequence-number range formatting: round-trip (C10) -/

theorem charVal_digitChar {d : Nat} (h : d < 10) : charVal (digitChar d) = d := by
  interval_cases d <;> decide

theorem isDigitChar_digitChar {d : Nat} (h : d < 10) : isDigitChar (digitChar d) = true := by
  interval_cases d <;> decide

theorem natRepr_all_digits (n : Nat) : ∀ c ∈ natRepr n, isDigitChar c = true := by
  intro c hc
  by_cases h : n = 0
  · simp [natRepr, h] at hc
    simp [hc]
    decide
  · simp [natRepr, h] at hc
    obtain ⟨d, hd, rfl⟩ := hc
    exact isDigitChar_digitChar (Nat.digits_lt_base (by norm_num) hd)

theorem natRepr_ne_nil (n : Nat) : natRepr n ≠ [] := by
  by_cases h : n = 0
  · simp [natRepr, h]
  · simp [natRepr, h, Nat.digits_ne_nil_iff_ne_zero.mpr h]

theorem natVal_natRepr (n : Nat) : natVal (natRepr n) = n := by
  by_cases h : n = 0
  · subst h
    decide
  · have hmap : (natRepr n).map charVal = (Nat.digits 10 n).reverse := by
      simp only [natRepr, h, if_false, List.map_map]
      rw [List.map_congr_left fun d hd => ?_, List.map_id]
      have hd' : d ∈ Nat.digits 10 n := by simpa using hd
      exact charVal_digitChar (Nat.digits_lt_base (by norm_num) hd')
    simp [natVal, hmap, Nat.ofDigits_digits]

theorem isDigitChar_dot : isDigitChar '.' = false := by decide

theorem takeWhile_digits_append (xs ys : List Char) (h : ∀ x ∈ xs, isDigitChar x = true) :
    (xs ++ '.' :: ys).takeWhile isDigitChar = xs ∧
    (xs ++ '.' :: ys).dropWhile isDigitChar = '.' :: ys := by
  induction xs with
  | nil => simp [List.takeWhile_cons, List.dropWhile_cons, isDigitChar_dot]
  | cons x t ih =>
    have hx : isDigitChar x = true := h x (List.mem_cons_self _ _)
    have ht := ih (fun y hy => h y (List.mem_cons_of_mem _ hy))
    simp [List.takeWhile_cons, List.dropWhile_cons, hx, ht.1, ht.2]

/-- C10: `seq_num_range` follows the grammar `_sn=<start>..<end?>` in
each of the four `(start, end)` shapes, and the spec-modelled parser
recovers the original pair from the formatted string in every case —
so the four output shapes are disjoint and formatting round-trips with
parsing (the pair is uniquely recoverable from the string). -/
theorem c10_seq_num_range_round_trip (start stop : Option Nat) :
    parseSeqNumRange (seq_num_range start stop) = some (start, stop) := by
  cases start with
  | none =>
    cases stop with
    | none => decide
    | some e =>
      simp only [seq_num_range, snTag, ddots, List.cons_append, List.nil_append]
      simp [parseSeqNumRange, List.takeWhile_cons, List.dropWhile_cons, isDigitChar_dot,
        List.all_eq_true.mpr (natRepr_all_digits e),
        List.isEmpty_eq_false.mpr (natRepr_ne_nil e), natVal_natRepr]
  | some s =>
    cases stop with
    | none =>
      have hsplit := takeWhile_digits_append (natRepr s) ['.'] (natRepr_all_digits s)
      simp only [seq_num_range, snTag, ddots, List.cons_append, List.nil_append,
        List.append_assoc]
      simp [parseSeqNumRange, hsplit.1, hsplit.2,
        List.isEmpty_eq_false.mpr (natRepr_ne_nil s), natVal_natRepr]
    | some e =>
      have hsplit := takeWhile_digits_append (natRepr s) ('.' :: natRepr e)
        (natRepr_all_digits s)
      simp only [seq_num_range, snTag, ddots, List.cons_append, List.nil_append,
        List.append_assoc]
      simp [parseSeqNumRange, hsplit.1, hsplit.2,
        List.all_eq_true.mpr (natRepr_all_digits e),
        List.isEmpty_eq_false.mpr (natRepr_ne_nil s),
        List.isEmpty_eq_false.mpr (natRepr_ne_nil e), natVal_natRepr]

/-! ### Drop-handler machinery: sorted drains -/

instance : IsTotal (Nat × Sample) (fun a b => a.1 ≤ b.1) :=
  ⟨fun a b => Nat.le_total a.1 b.1⟩

instance : IsTrans (Nat × Sample) (fun a b => a.1 ≤ b.1) :=
  ⟨fun _ _ _ hab hbc => Nat.le_trans hab hbc⟩

theorem sortByKey_sorted (l : List (Nat × Sample)) :
    List.Sorted (fun a b : Nat × Sample => a.1 ≤ b.1) (sortByKey l) :=
  List.sorted_insertionSort _ l

theorem sortByKey_perm (l : List (Nat × Sample)) : (sortByKey l).Perm l :=
  List.perm_insertionSort _ l

theorem deliverSorted_snd (last : Option Nat) (l : List (Nat × Sample)) :
    (deliverSorted last l).2 = l.map Prod.snd := by
  induction l generalizing last with
  | nil => rfl
  | cons p t ih =>
    obtain ⟨k, s⟩ := p
    simp [deliverSorted, ih]

theorem deliverSorted_fst (last : Option Nat) (l : List (Nat × Sample)) :
    (deliverSorted last l).1 =
      (match l.getLast? with
        | none => last
        | some p => some p.1) := by
  induction l generalizing last with
  | nil => rfl
  | cons p t ih =>
    obtain ⟨k, s⟩ := p
    cases t with
    | nil => simp [deliverSorted]
    | cons q t2 =>
      obtain ⟨qk, qs⟩ := q
      have h := ih (some k)
      simp only [deliverSorted, List.getLast?_cons_cons] at h ⊢
      exact h

theorem pairwise_le_getLast {ks : List Nat} (hs : List.Pairwise (· ≤ ·) ks) (hne : ks ≠ []) :
    ∃ m, ks.getLast? = some m ∧ ∀ k ∈ ks, k ≤ m := by
  induction ks with
  | nil => exact absurd rfl hne
  | cons a t ih =>
    cases t with
    | nil => exact ⟨a, rfl, by simp⟩
    | cons b t2 =>
      rw [List.pairwise_cons] at hs
      obtain ⟨m, hm1, hm2⟩ := ih hs.2 (by simp)
      refine ⟨m, by simpa using hm1, ?_⟩
      intro k hk
      rcases List.mem_cons.mp hk with rfl | hk'
      · exact hs.1 m (List.mem_of_getLast?_eq_some hm1)
      · exact hm2 k hk'

theorem sortByKey_keys_pairwise (l : List (Nat × Sample)) :
    List.Pairwise (· ≤ ·) ((sortByKey l).map Prod.fst) := by
  rw [List.pairwise_map]
  exact sortByKey_sorted l

theorem pairwise_lt_of_le_nodup {ks : List Nat} (hle : List.Pairwise (· ≤ ·) ks)
    (hnd : ks.Nodup) : List.Pairwise (· < ·) ks :=
  (hle.and hnd).imp fun h => lt_of_le_of_ne h.1 h.2

/-- C7: on recovery-query termination (`RepliesHandler::drop`) for a
source present in the state map with at least one in-flight query, the
source's `pending_queries` is decremented by one; if `pending_samples`
is non-empty and `wait` is false, the loss event is logged and
`pending_samples` is drained in strictly ascending `source_sn` order —
every buffered sample is delivered exactly once — with
`last_delivered_sn` finally equal to the highest drained key; if
`pending_samples` is empty, nothing is delivered and nothing is logged.
The hypotheses `hwf` and `hnd` are the `HashMap` invariants of
`pending_samples`: each sample is stored under its own `source_sn` and
keys are unique. -/
theorem c7_recovery_query_termination (states : StatesMap) (sid : ZenohId) (st : InnerState)
    (wait : Bool)
    (hget : alGet sid states = some st)
    (hpq : 1 ≤ st.pending_queries)
    (hwf : ∀ p ∈ st.pending_samples, Sample.source_sn p.2 = some p.1)
    (hnd : (st.pending_samples.map Prod.fst).Nodup) :
    ∃ states' delivered logged,
      replies_handler_drop sid states wait = some (states', delivered, logged) ∧
      ∃ st', alGet sid states' = some st' ∧
        st'.pending_queries + 1 = st.pending_queries ∧
        (st.pending_samples ≠ [] → wait = false →
          logged = true ∧
          st'.pending_samples = [] ∧
          delivered.Perm (st.pending_samples.map Prod.snd) ∧
          List.Pairwise (· < ·) (traceSns delivered) ∧
          ∃ m, st'.last_seq_num = some m ∧
            m ∈ st.pending_samples.map Prod.fst ∧
            ∀ k ∈ st.pending_samples.map Prod.fst, k ≤ m) ∧
        (st.pending_samples = [] →
          delivered = [] ∧ logged = false ∧
          st'.last_seq_num = st.last_seq_num ∧
          st'.pending_samples = st.pending_samples) := by
  obtain ⟨pq, hpq'⟩ : ∃ pq, st.pending_queries = pq + 1 :=
    ⟨st.pending_queries - 1, by omega⟩
  by_cases hcond : ¬st.pending_samples.isEmpty = true ∧ wait = false
  · refine ⟨alInsert sid
      { last_seq_num := (deliverSorted st.last_seq_num (sortByKey st.pending_samples)).1,
        pending_queries := pq, pending_samples := [] } states,
      (deliverSorted st.last_seq_num (sortByKey st.pending_samples)).2, true, ?_, _,
      alGet_alInsert_self sid _ states, by simpa using hpq'.symm, ?_, ?_⟩
    · simp only [replies_handler_drop, hget, hpq']
      rw [if_pos hcond]
    · intro _ _
      have hpermS : (sortByKey st.pending_samples).Perm st.pending_samples :=
        sortByKey_perm st.pending_samples
      have hne : st.pending_samples ≠ [] := by
        intro h
        exact hcond.1 (by simp [h])
      have hsne : sortByKey st.pending_samples ≠ [] := by
        intro h
        refine hne (List.eq_nil_of_length_eq_zero ?_)
        have := hpermS.length_eq
        simp [h] at this
        omega
      refine ⟨rfl, rfl, ?_, ?_, ?_⟩
      · rw [deliverSorted_snd]
        exact hpermS.map Prod.snd
      · rw [deliverSorted_snd]
        have hkeys : traceSns ((sortByKey st.pending_samples).map Prod.snd) =
            (sortByKey st.pending_samples).map Prod.fst := by
          simp only [traceSns, List.map_map]
          refine List.map_congr_left fun p hp => ?_
          have hsn := hwf p (hpermS.subset hp)
          simp [Function.comp, hsn]
        rw [hkeys]
        refine pairwise_lt_of_le_nodup (sortByKey_keys_pairwise _) ?_
        exact ((hpermS.map Prod.fst).nodup_iff).mpr hnd
      · obtain ⟨m, hm1, hm2⟩ :=
          pairwise_le_getLast (sortByKey_keys_pairwise st.pending_samples)
            (by simpa using hsne)
        rw [List.getLast?_map] at hm1
        obtain ⟨p, hp1, hp2⟩ := Option.map_eq_some'.mp hm1
        refine ⟨m, ?_, ?_, ?_⟩
        · simp only [deliverSorted_fst, hp1]
          simp [hp2]
        · have hpmem : p ∈ st.pending_samples :=
            hpermS.subset (List.mem_of_getLast?_eq_some hp1)
          simpa [hp2] using List.mem_map_of_mem Prod.fst hpmem
        · intro k hk
          exact hm2 k (((hpermS.map Prod.fst).mem_iff).mpr hk)
    · intro he
      exact absurd (by simp [he]) hcond.1
  · refine ⟨alInsert sid { st with pending_queries := pq } states, [], false, ?_, _,
      alGet_alInsert_self sid _ states, by simpa using hpq'.symm, ?_, ?_⟩
    · simp only [replies_handler_drop, hget, hpq']
      rw [if_neg hcond]
    · intro hne hw
      exact absurd ⟨by simpa using hne, hw⟩ hcond
    · intro _
      exact ⟨rfl, rfl, rfl, rfl⟩

/-- Witness for `c7_recovery_query_termination`: source 2 with one
in-flight query, pending samples keyed 4 and 3, `wait` false. -/
theorem c7_recovery_query_termination_witness :
    replies_handler_drop 2
      [(2, ⟨some 1, 1, [(4, ⟨some 2, some 4, 40⟩), (3, ⟨some 2, some 3, 30⟩)]⟩)]
      false ≠ none := by
  obtain ⟨states', delivered, logged, heq, -⟩ :=
    c7_recovery_query_termination
      [(2, ⟨some 1, 1, [(4, ⟨some 2, some 4, 40⟩), (3, ⟨some 2, some 3, 30⟩)]⟩)]
      2 ⟨some 1, 1, [(4, ⟨some 2, some 4, 40⟩), (3, ⟨some 2, some 3, 30⟩)]⟩ false
      (by decide) (by decide) (by decide) (by decide)
  simp [heq]

/-! ### Bootstrap drop machinery (C8) -/

/-- Shared shape of a sorted drain: the delivered samples are exactly
the pending samples. -/
theorem sorted_drain_perm (last : Option Nat) (pending : List (Nat × Sample)) :
    ((deliverSorted last (sortByKey pending)).2).Perm (pending.map Prod.snd) := by
  rw [deliverSorted_snd]
  exact (sortByKey_perm pending).map Prod.snd

/-- Shared shape of a sorted drain: delivery order is strictly
ascending in `source_sn`. -/
theorem sorted_drain_pairwise (last : Option Nat) (pending : List (Nat × Sample))
    (hwf : ∀ p ∈ pending, Sample.source_sn p.2 = some p.1)
    (hnd : (pending.map Prod.fst).Nodup) :
    List.Pairwise (· < ·) (traceSns (deliverSorted last (sortByKey pending)).2) := by
  rw [deliverSorted_snd]
  have hkeys : traceSns ((sortByKey pending).map Prod.snd) =
      (sortByKey pending).map Prod.fst := by
    simp only [traceSns, List.map_map]
    refine List.map_congr_left fun p hp => ?_
    have hsn := hwf p ((sortByKey_perm pending).subset hp)
    simp [Function.comp, hsn]
  rw [hkeys]
  refine pairwise_lt_of_le_nodup (sortByKey_keys_pairwise _) ?_
  exact (((sortByKey_perm pending).map Prod.fst).nodup_iff).mpr hnd

/-- Shared shape of a sorted drain: the final `last_seq_num` is the
highest pending key. -/
theorem sorted_drain_last (last : Option Nat) (pending : List (Nat × Sample))
    (hne : pending ≠ []) :
    ∃ m, (deliverSorted last (sortByKey pending)).1 = some m ∧
      m ∈ pending.map Prod.fst ∧ ∀ k ∈ pending.map Prod.fst, k ≤ m := by
  have hpermS := sortByKey_perm pending
  have hsne : sortByKey pending ≠ [] := by
    intro h
    refine hne (List.eq_nil_of_length_eq_zero ?_)
    have := hpermS.length_eq
    simp [h] at this
    omega
  obtain ⟨m, hm1, hm2⟩ := pairwise_le_getLast (sortByKey_keys_pairwise pending)
    (by simpa using hsne)
  rw [List.getLast?_map] at hm1
  obtain ⟨p, hp1, hp2⟩ := Option.map_eq_some'.mp hm1
  refine ⟨m, ?_, ?_, ?_⟩
  · simp only [deliverSorted_fst, hp1]
    simp [hp2]
  · have hpmem : p ∈ pending := hpermS.subset (List.mem_of_getLast?_eq_some hp1)
    simpa [hp2] using List.mem_map_of_mem Prod.fst hpmem
  · intro k hk
    exact hm2 k (((hpermS.map Prod.fst).mem_iff).mpr hk)

/-- The per-source transformation applied by `InitialRepliesHandler::drop`:
the pending map is emptied and `last_seq_num` ends at the last drained
key (or stays put when nothing was pending). -/
def bootstrapFlush (st : InnerState) : InnerState :=
  { st with
    pending_samples := [],
    last_seq_num := (deliverSorted st.last_seq_num (sortByKey st.pending_samples)).1 }

/-- Samples delivered for a given source, read off an event trace. -/
def deliveriesFor (sid : ZenohId) (evs : List Event) : List Sample :=
  evs.filterMap fun e =>
    match e with
    | Event.deliver j s => if j = sid then some s else none
    | _ => none

theorem deliveriesFor_append (sid : ZenohId) (evs1 evs2 : List Event) :
    deliveriesFor sid (evs1 ++ evs2) = deliveriesFor sid evs1 ++ deliveriesFor sid evs2 :=
  List.filterMap_append _ _ _

theorem deliveriesFor_deliver_self (sid : ZenohId) (l : List Sample) :
    deliveriesFor sid (l.map (Event.deliver sid)) = l := by
  induction l with
  | nil => rfl
  | cons s t ih => simpa [deliveriesFor, List.filterMap_cons] using ih

theorem deliveriesFor_deliver_other {sid j : ZenohId} (hne : j ≠ sid) (l : List Sample) :
    deliveriesFor sid (l.map (Event.deliver j)) = [] := by
  induction l with
  | nil => rfl
  | cons s t ih => simp [deliveriesFor, List.filterMap_cons, hne]

theorem deliveriesFor_timer (sid j : ZenohId) :
    deliveriesFor sid [Event.startTimer j] = [] := rfl

theorem initialDropLoop_fst (periodic : Bool) (states : StatesMap) :
    (initialDropLoop periodic states).1 = states.map fun q => (q.1, bootstrapFlush q.2) := by
  induction states with
  | nil => rfl
  | cons q rest ih =>
    obtain ⟨sid, st⟩ := q
    simp [initialDropLoop, bootstrapFlush, ih]

theorem initialDropLoop_no_clearWait (periodic : Bool) (states : StatesMap) :
    Event.clearWait ∉ (initialDropLoop periodic states).2 := by
  induction states with
  | nil => simp [initialDropLoop]
  | cons q rest ih =>
    obtain ⟨sid, st⟩ := q
    intro h
    simp only [initialDropLoop] at h
    rcases List.mem_append.mp h with h12 | h3
    · rcases List.mem_append.mp h12 with h1 | h2
      · obtain ⟨s, -, hs⟩ := List.mem_map.mp h1
        exact Event.noConfusion hs
      · by_cases hp : periodic <;> simp [hp] at h2
    · exact ih h3

theorem initialDropLoop_timers (states : StatesMap) :
    ∀ p ∈ states, Event.startTimer p.1 ∈ (initialDropLoop true states).2 := by
  induction states with
  | nil => simp
  | cons q rest ih =>
    obtain ⟨sid, st⟩ := q
    intro p hp
    rcases List.mem_cons.mp hp with rfl | hp'
    · simp [initialDropLoop]
    · simp only [initialDropLoop, List.mem_append]
      exact Or.inr (ih p hp')

theorem deliveriesFor_not_mem (periodic : Bool) {sid : ZenohId} {states : StatesMap}
    (h : sid ∉ states.map Prod.fst) :
    deliveriesFor sid (initialDropLoop periodic states).2 = [] := by
  induction states with
  | nil => rfl
  | cons q rest ih =>
    obtain ⟨j, st⟩ := q
    have hj : j ≠ sid := by
      intro hj
      exact h (by simp [hj])
    have hrest : sid ∉ rest.map Prod.fst := fun hr => h (by simp [hr])
    simp only [initialDropLoop, deliveriesFor_append, deliveriesFor_deliver_other hj,
      ih hrest, List.nil_append, List.append_nil]
    by_cases hp : periodic <;> simp [hp, deliveriesFor]

theorem deliveriesFor_initialDropLoop (periodic : Bool) {sid : ZenohId} {st : InnerState}
    {states : StatesMap} (hnd : (states.map Prod.fst).Nodup) (hmem : (sid, st) ∈ states) :
    deliveriesFor sid (initialDropLoop periodic states).2 =
      (deliverSorted st.last_seq_num (sortByKey st.pending_samples)).2 := by
  induction states with
  | nil => simp at hmem
  | cons q rest ih =>
    obtain ⟨j, qst⟩ := q
    rw [List.map_cons, List.nodup_cons] at hnd
    by_cases hj : j = sid
    · subst hj
      have hqst : qst = st := by
        rcases List.mem_cons.mp hmem with heq | hmem'
        · exact (Prod.mk.injEq .. ▸ heq.symm).2.symm ▸ rfl
        · exact absurd (by simpa using List.mem_map_of_mem Prod.fst hmem') hnd.1
      subst hqst
      have hrest : j ∉ rest.map Prod.fst := hnd.1
      simp only [initialDropLoop, deliveriesFor_append, deliveriesFor_deliver_self,
        deliveriesFor_not_mem periodic hrest, List.append_nil]
      by_cases hp : periodic <;> simp [hp, deliveriesFor]
    · have hmem' : (sid, st) ∈ rest := by
        rcases List.mem_cons.mp hmem with heq | hmem'
        · exact absurd (congrArg Prod.fst heq).symm hj
        · exact hmem'
      simp only [initialDropLoop, deliveriesFor_append,
        deliveriesFor_deliver_other hj, ih hnd.2 hmem', List.nil_append]
      by_cases hp : periodic <;> simp [hp, deliveriesFor]

theorem deliveriesFor_clearWait (sid : ZenohId) :
    deliveriesFor sid [Event.clearWait] = [] := rfl

/-- C8: while `wait` is true, `handle_sample` delivers nothing and only
inserts the sample into its source's `pending_samples`; and on bootstrap
termination (`InitialRepliesHandler::drop`) every source's
`pending_samples` is drained in strictly ascending key order with every
buffered sample delivered exactly once, `last_seq_num` ends at the
highest drained key (or stays put when nothing was pending), periodic
probe timers are started for every observed source when periodic
queries are configured, and the clearing of `wait` is the final event,
after all deliveries and timer starts. The hypotheses of the per-source
part are the `HashMap` invariants (unique outer keys; each pending
sample stored under its own `source_sn` with unique keys). -/
theorem c8_bootstrap_gate :
    (∀ (states : StatesMap) (s : Sample) (sid : ZenohId) (sn : Nat),
      s.source_id = some sid → s.source_sn = some sn →
      (handle_sample states true s).2.1 = [] ∧
      (handle_sample states true s).1 = alInsert sid
        { (alGet sid states).getD InnerState.init with
          pending_samples :=
            alInsert sn s ((alGet sid states).getD InnerState.init).pending_samples }
        states) ∧
    (∀ (periodic : Bool) (states : StatesMap),
      (initial_replies_handler_drop periodic states).2.1 = false ∧
      (∃ evs0, (initial_replies_handler_drop periodic states).2.2 =
          evs0 ++ [Event.clearWait] ∧ Event.clearWait ∉ evs0) ∧
      (periodic = true → ∀ p ∈ states,
        Event.startTimer p.1 ∈ (initial_replies_handler_drop periodic states).2.2) ∧
      ((states.map Prod.fst).Nodup →
        ∀ p ∈ states,
        (∀ q ∈ (p.2 : InnerState).pending_samples, Sample.source_sn q.2 = some q.1) →
        ((p.2 : InnerState).pending_samples.map Prod.fst).Nodup →
        (p.1, bootstrapFlush p.2) ∈ (initial_replies_handler_drop periodic states).1 ∧
        (bootstrapFlush p.2).pending_samples = [] ∧
        (deliveriesFor p.1 (initial_replies_handler_drop periodic states).2.2).Perm
          (p.2.pending_samples.map Prod.snd) ∧
        List.Pairwise (· < ·)
          (traceSns (deliveriesFor p.1 (initial_replies_handler_drop periodic states).2.2)) ∧
        (p.2.pending_samples = [] →
          (bootstrapFlush p.2).last_seq_num = p.2.last_seq_num) ∧
        (p.2.pending_samples ≠ [] →
          ∃ m, (bootstrapFlush p.2).last_seq_num = some m ∧
            m ∈ p.2.pending_samples.map Prod.fst ∧
            ∀ k ∈ p.2.pending_samples.map Prod.fst, k ≤ m))) := by
  constructor
  · intro states s sid sn h1 h2
    constructor <;> simp [handle_sample, h1, h2]
  · intro periodic states
    refine ⟨rfl, ⟨(initialDropLoop periodic states).2, rfl,
      initialDropLoop_no_clearWait periodic states⟩, ?_, ?_⟩
    · intro hp p hpmem
      subst hp
      exact List.mem_append_left _ (initialDropLoop_timers states p hpmem)
    · intro hndOuter p hpmem hwf hndInner
      obtain ⟨sid, st⟩ := p
      have hdel : deliveriesFor sid (initial_replies_handler_drop periodic states).2.2 =
          (deliverSorted st.last_seq_num (sortByKey st.pending_samples)).2 := by
        show deliveriesFor sid ((initialDropLoop periodic states).2 ++ [Event.clearWait]) = _
        rw [deliveriesFor_append, deliveriesFor_clearWait, List.append_nil]
        exact deliveriesFor_initialDropLoop periodic hndOuter hpmem
      refine ⟨?_, rfl, ?_, ?_, ?_, ?_⟩
      · show (sid, bootstrapFlush st) ∈ (initialDropLoop periodic states).1
        rw [initialDropLoop_fst]
        exact List.mem_map_of_mem _ hpmem
      · rw [hdel]
        exact sorted_drain_perm st.last_seq_num st.pending_samples
      · rw [hdel]
        exact sorted_drain_pairwise st.last_seq_num st.pending_samples hwf hndInner
      · intro he
        simp only [] at he
        simp [bootstrapFlush, he, sortByKey, List.insertionSort, deliverSorted]
      · intro hne
        exact sorted_drain_last st.last_seq_num st.pending_samples hne

/-- Witness for `c8_bootstrap_gate`: a sample buffered under `wait`,
and a bootstrap drop over a one-source map with one pending sample. -/
theorem c8_bootstrap_gate_witness :
    (handle_sample [] true ⟨some 1, some 5, 0⟩).2.1 = [] ∧
    (initial_replies_handler_drop true
      [(1, ⟨none, 0, [(5, ⟨some 1, some 5, 0⟩)]⟩)]).2.1 = false ∧
    (1, bootstrapFlush ⟨none, 0, [(5, ⟨some 1, some 5, 0⟩)]⟩) ∈
      (initial_replies_handler_drop true
        [(1, ⟨none, 0, [(5, ⟨some 1, some 5, 0⟩)]⟩)]).1 := by
  refine ⟨(c8_bootstrap_gate.1 [] ⟨some 1, some 5, 0⟩ 1 5 rfl rfl).1,
    (c8_bootstrap_gate.2 true [(1, ⟨none, 0, [(5, ⟨some 1, some 5, 0⟩)]⟩)]).1,
    ((c8_bootstrap_gate.2 true [(1, ⟨none, 0, [(5, ⟨some 1, some 5, 0⟩)]⟩)]).2.2.2
      (by decide) (1, ⟨none, 0, [(5, ⟨some 1, some 5, 0⟩)]⟩)
      (by simp) (by decide) (by decide)).1⟩

/-! ### Per-source in-order delivery (C1) -/

/-- Invariant tied to one source during a `wait = false` run: if the
source has a state entry, its `last_seq_num` is set, the pending map
stores each sample under its own `source_sn`, and the delivery trace so
far is exactly the consecutive range from the first delivered sequence
number up to `last_seq_num`; if it has no entry, nothing was
delivered. -/
def SourceInv (sid : ZenohId) (states : StatesMap) (trace : List Sample) : Prop :=
  match alGet sid states with
  | none => trace = []
  | some st =>
    (∀ p ∈ st.pending_samples, Sample.source_sn p.2 = some p.1) ∧
    ∃ l k, st.last_seq_num = some l ∧ k ≤ l ∧
      traceSns trace = List.range' k (l + 1 - k)

theorem drainLoop_spec (fuel : Nat) (pending : List (Nat × Sample)) (last : Nat)
    (hwf : ∀ p ∈ pending, Sample.source_sn p.2 = some p.1) :
    (∀ p ∈ (drainLoop fuel pending last).2.1, Sample.source_sn p.2 = some p.1) ∧
    ∃ n, (drainLoop fuel pending last).2.2 = last + n ∧
      traceSns (drainLoop fuel pending last).1 = List.range' (last + 1) n := by
  induction fuel generalizing pending last with
  | zero => exact ⟨hwf, 0, by simp [drainLoop], by simp [drainLoop, traceSns]⟩
  | succ fuel ih =>
    cases hget : alGet (last + 1) pending with
    | none =>
      have hred : drainLoop (fuel + 1) pending last = ([], pending, last) := by
        simp [drainLoop, hget]
      rw [hred]
      exact ⟨hwf, 0, by simp, by simp [traceSns, List.range']⟩
    | some s =>
      have hrest : ∀ p ∈ alErase (last + 1) pending, Sample.source_sn p.2 = some p.1 :=
        fun p hp => hwf p (mem_alErase hp)
      obtain ⟨hwf', n, hn, ht⟩ := ih (alErase (last + 1) pending) (last + 1) hrest
      have hs : Sample.source_sn s = some (last + 1) := hwf _ (alGet_mem hget)
      have hred : drainLoop (fuel + 1) pending last =
          (s :: (drainLoop fuel (alErase (last + 1) pending) (last + 1)).1,
           (drainLoop fuel (alErase (last + 1) pending) (last + 1)).2) := by
        simp [drainLoop, hget]
      rw [hred]
      refine ⟨hwf', n + 1, ?_, ?_⟩
      · show (drainLoop fuel (alErase (last + 1) pending) (last + 1)).2.2 = last + (n + 1)
        rw [hn, Nat.add_assoc, Nat.add_comm 1 n]
      · show traceSns (s :: (drainLoop fuel (alErase (last + 1) pending) (last + 1)).1) = _
        have ht' := ht
        simp only [traceSns] at ht'
        simp only [traceSns, List.map_cons, hs, Option.getD_some]
        rw [show List.range' (last + 1) (n + 1) = (last + 1) :: List.range' (last + 2) n
          from by simp [List.range']]
        exact congrArg _ ht' 

theorem handle_sample_inv (sid : ZenohId) (states : StatesMap) (trace : List Sample)
    (s : Sample) (sn : Nat)
    (hinv : SourceInv sid states trace)
    (h1 : s.source_id = some sid) (h2 : s.source_sn = some sn) :
    SourceInv sid (handle_sample states false s).1
      (trace ++ (handle_sample states false s).2.1) := by
  cases hget : alGet sid states with
  | none =>
    have htr : trace = [] := by simpa [SourceInv, hget] using hinv
    subst htr
    have hred : handle_sample states false s =
        (alInsert sid ⟨some sn, 0, []⟩ states, [s], false) := by
      simp [handle_sample, h1, h2, hget, deliverAndDrain, InnerState.init, drainLoop]
    rw [hred]
    simp only [SourceInv, alGet_alInsert_self]
    refine ⟨by simp, sn, sn, rfl, Nat.le_refl _, ?_⟩
    simp [traceSns, h2, List.range']
  | some st =>
    simp only [SourceInv, hget] at hinv
    obtain ⟨hwf, l, k, hlast, hkl, htrace⟩ := hinv
    by_cases hsn : sn = l + 1
    · obtain ⟨hwf', n, hn, ht⟩ :=
        drainLoop_spec st.pending_samples.length st.pending_samples sn hwf
      have hred : handle_sample states false s =
          (alInsert sid
            { st with
              last_seq_num :=
                some ((drainLoop st.pending_samples.length st.pending_samples sn).2.2),
              pending_samples :=
                (drainLoop st.pending_samples.length st.pending_samples sn).2.1 } states,
            s :: (drainLoop st.pending_samples.length st.pending_samples sn).1, true) := by
        simp [handle_sample, h1, h2, hget, hlast, hsn, deliverAndDrain]
      rw [hred]
      simp only [SourceInv, alGet_alInsert_self]
      refine ⟨hwf', (drainLoop st.pending_samples.length st.pending_samples sn).2.2, k,
        rfl, by omega, ?_⟩
      rw [show traceSns
            (trace ++ s :: (drainLoop st.pending_samples.length st.pending_samples sn).1) =
          traceSns trace ++
            sn :: traceSns (drainLoop st.pending_samples.length st.pending_samples sn).1
        from by simp [traceSns, h2]]
      rw [htrace, ht]
      rw [show sn :: List.range' (sn + 1) n = List.range' sn (n + 1) from by simp [List.range']]
      have happ := List.range'_append k (l + 1 - k) (n + 1) 1
      simp only [one_mul] at happ
      rw [show k + (l + 1 - k) = sn from by omega] at happ
      rw [happ]
      congr 1
      omega
    · by_cases hgt : sn > l
      · have hred : handle_sample states false s =
            (alInsert sid
              { st with pending_samples := alInsert sn s st.pending_samples } states,
              [], (alGet sid states).isSome) := by
          simp [handle_sample, h1, h2, hget, hlast, hsn, hgt]
        rw [hred]
        simp only [SourceInv, alGet_alInsert_self]
        refine ⟨?_, l, k, hlast, hkl, by simpa [traceSns] using htrace⟩
        intro p hp
        rcases mem_alInsert hp with rfl | hp'
        · exact h2
        · exact hwf p hp'
      · have hred : handle_sample states false s =
            (alInsert sid st states, [], (alGet sid states).isSome) := by
          simp [handle_sample, h1, h2, hget, hlast, hsn, hgt]
        rw [hred, alInsert_self hget]
        simp only [SourceInv, hget]
        exact ⟨hwf, l, k, hlast, hkl, by simpa [traceSns] using htrace⟩

theorem runSamples_inv (sid : ZenohId) (samples : List Sample)
    (hall : ∀ s ∈ samples, s.source_id = some sid ∧ s.source_sn ≠ none) :
    ∀ (states : StatesMap) (trace : List Sample), SourceInv sid states trace →
      SourceInv sid (runSamples states samples).1
        (trace ++ (runSamples states samples).2) := by
  induction samples with
  | nil =>
    intro states trace h
    simpa [runSamples] using h
  | cons s rest ih =>
    intro states trace h
    obtain ⟨h1, h2⟩ := hall s (List.mem_cons_self _ _)
    obtain ⟨sn, hsn⟩ := Option.ne_none_iff_exists'.mp h2
    have hstep := handle_sample_inv sid states trace s sn h h1 hsn
    have hrec := ih (fun q hq => hall q (List.mem_cons_of_mem _ hq))
      (handle_sample states false s).1 (trace ++ (handle_sample states false s).2.1) hstep
    simpa [runSamples, List.append_assoc] using hrec

/-- C1: feeding any stream of samples from a single source through
`handle_sample` with `wait` false throughout (live and reply samples
alike, in any interleaving) and no loss-flush, the delivery callback
observes that source's `source_sn` values as a consecutive strictly
ascending run `k, k+1, k+2, …` — no duplicates, no reordering, no gaps.
Per call: an in-order (`sn = last+1`) or first-ever sample is delivered
immediately, at the head of that call's deliveries, followed only by the
consecutive successors drained from `pending_samples`; a sample with
`sn ≤ last_delivered` is dropped with no delivery and no state change;
a sample with `sn > last_delivered + 1` is buffered into
`pending_samples` and nothing is delivered. -/
theorem c1_per_source_in_order :
    (∀ (sid : ZenohId) (samples : List Sample),
      (∀ s ∈ samples, s.source_id = some sid ∧ s.source_sn ≠ none) →
      ∃ k, traceSns (runSamples [] samples).2 =
        List.range' k (runSamples [] samples).2.length) ∧
    (∀ (states : StatesMap) (s : Sample) (sid : ZenohId) (sn : Nat)
      (st : InnerState) (l : Nat),
      s.source_id = some sid → s.source_sn = some sn →
      alGet sid states = some st → st.last_seq_num = some l →
      (sn ≤ l → handle_sample states false s = (states, [], true)) ∧
      (l + 1 < sn → handle_sample states false s =
        (alInsert sid
          { st with pending_samples := alInsert sn s st.pending_samples } states,
          [], true)) ∧
      (sn = l + 1 → (handle_sample states false s).2.1 =
        s :: (drainLoop st.pending_samples.length st.pending_samples sn).1)) ∧
    (∀ (states : StatesMap) (s : Sample) (sid : ZenohId) (sn : Nat),
      s.source_id = some sid → s.source_sn = some sn →
      alGet sid states = none →
      (handle_sample states false s).2.1 = [s]) := by
  refine ⟨?_, ?_, ?_⟩
  · intro sid samples hall
    have hstart : SourceInv sid [] [] := by simp [SourceInv, alGet]
    have hfin := runSamples_inv sid samples hall [] [] hstart
    rw [List.nil_append] at hfin
    rcases hget : alGet sid (runSamples [] samples).1 with _ | st
    · rw [SourceInv, hget] at hfin
      refine ⟨0, ?_⟩
      rw [hfin]
      simp [traceSns, List.range']
    · rw [SourceInv, hget] at hfin
      obtain ⟨-, l, k, -, -, htr⟩ := hfin
      refine ⟨k, ?_⟩
      have hlen : (runSamples [] samples).2.length = l + 1 - k := by
        have := congrArg List.length htr
        simpa [traceSns] using this
      rw [hlen, htr]
  · intro states s sid sn st l h1 h2 hget hlast
    refine ⟨?_, ?_, ?_⟩
    · intro hle
      have hne : sn ≠ l + 1 := by omega
      have hng : ¬sn > l := by omega
      have hnew : (alGet sid states).isSome = true := by simp [hget]
      simp [handle_sample, h1, h2, hget, hlast, hne, hng, alInsert_self hget, hnew]
    · intro hgt
      have hne : sn ≠ l + 1 := by omega
      have hg : sn > l := by omega
      have hnew : (alGet sid states).isSome = true := by simp [hget]
      simp [handle_sample, h1, h2, hget, hlast, hne, hg, hnew]
    · intro hsn
      simp [handle_sample, h1, h2, hget, hlast, hsn, deliverAndDrain]
  · intro states s sid sn h1 h2 hget
    simp [handle_sample, h1, h2, hget, deliverAndDrain, InnerState.init, drainLoop]

/-- Witness for `c1_per_source_in_order`: the stream `5, 7, 6, 5` from
source 1 (in-order, gap buffered, gap healed, duplicate dropped); the
delivered run is `5, 6, 7`; plus the three per-call dispositions at
concrete states. -/
theorem c1_per_source_in_order_witness :
    (∃ k, traceSns (runSamples []
        [⟨some 1, some 5, 0⟩, ⟨some 1, some 7, 1⟩, ⟨some 1, some 6, 2⟩,
         ⟨some 1, some 5, 3⟩]).2 =
      List.range' k (runSamples []
        [⟨some 1, some 5, 0⟩, ⟨some 1, some 7, 1⟩, ⟨some 1, some 6, 2⟩,
         ⟨some 1, some 5, 3⟩]).2.length) ∧
    handle_sample [(1, ⟨some 5, 0, []⟩)] false ⟨some 1, some 4, 9⟩ =
      ([(1, ⟨some 5, 0, []⟩)], [], true) ∧
    (handle_sample [(1, ⟨some 5, 0, []⟩)] false ⟨some 1, some 6, 9⟩).2.1 =
      [⟨some 1, some 6, 9⟩] := by
  refine ⟨c1_per_source_in_order.1 1 _ (by decide), ?_, ?_⟩
  · exact (c1_per_source_in_order.2.1 [(1, ⟨some 5, 0, []⟩)] ⟨some 1, some 4, 9⟩ 1 4
      ⟨some 5, 0, []⟩ 5 rfl rfl (by decide) rfl).1 (by decide)
  · have h := (c1_per_source_in_order.2.1 [(1, ⟨some 5, 0, []⟩)] ⟨some 1, some 6, 9⟩ 1 6
      ⟨some 5, 0, []⟩ 5 rfl rfl (by decide) rfl).2.2 rfl
    rw [h]
    decide
